import Mathlib

/-!
Verification of the chunked P2P file-transfer engine (hikari-beam).

Shallow embedding of the core logic:
* `chunking.ts` — chunk planning (`generateFileMetadata`, `getChunkInfo`),
  missing-chunk enumeration (`getMissingChunksFromBitfield`) and range
  grouping (`createRequestRanges`);
* the IndexedDB layer (`idb`) — bitfield bit set/test (`setBitfieldBit`,
  `hasBitfieldBit`), the missing-range scan (`getMissingRanges`) and file
  assembly (`assembleFile`); the asynchronous store reads/writes are made
  explicit state passing on `FileRecord` values;
* `resume-protocol.ts` — `handleHostRejoin` and `validateResumeSession`;
* the hooks layer — the REQUEST branch of `handlePeerMessage` and the
  `'completed'` status computation of `handleHostMessage`;
* the WebRTC layer — the backpressure logic of `sendMessage` and the chunk
  loop of `sendFile` (`p2p-manager-fixed.ts`), modelled as the sequence of
  buffered-amount values observed at each `channel.send` call;
* `eta/Holt.ts` — the Holt double-exponential smoother, with the
  JavaScript numbers modelled as rationals.

Bitfields are byte lists (each byte `< 256`, most-significant bit first),
exactly the `Uint8Array` layout of the source; an out-of-bounds byte read
yields `0` as in JavaScript (`undefined & x === 0`).
-/

namespace HikariBeam

/-! ### Data model (`types.ts`) -/

/-- `FileMetadata` from `types.ts` (wire-irrelevant fields kept). -/
structure FileMetadata where
  fileId : String
  name : String
  size : Nat
  type : String
  chunkSize : Nat
  totalChunks : Nat
  createdAt : Nat
deriving Repr, DecidableEq

/-- `FileRecord` from `types.ts`: the persisted per-file record holding the
bitfield (as a byte list) and the received-chunk counter. -/
structure FileRecord where
  fileId : String
  metadata : FileMetadata
  bitfield : List Nat
  receivedCount : Nat
  createdAt : Nat
  lastAccessed : Nat
deriving Repr, DecidableEq

/-- `ChunkRecord` from `types.ts`; the payload bytes are a `List Nat`. -/
structure ChunkRecord where
  index : Nat
  data : List Nat
deriving Repr, DecidableEq

/-- An inclusive chunk-index range `{start, end}`. -/
structure ChunkRange where
  start : Nat
  endIdx : Nat
deriving Repr, DecidableEq

/-- `ChunkInfo` from `types.ts`; fields are integers because the
JavaScript arithmetic of `getChunkInfo` can go negative. -/
structure ChunkInfo where
  index : Int
  size : Int
  offset : Int
deriving Repr, DecidableEq

/-! ### Bitfield primitives (`idb` part of the store layer)

Bit `i` lives in byte `i / 8` at bit position `7 - i % 8` (MSB first). -/

/-- Test bit `i` of a byte-list bitfield.  Reading past the end of the
array yields `false`, matching both the explicit `byteIndex >= length`
guards in the source and JavaScript's `undefined & x === 0`. -/
def bitfieldHas (bf : List Nat) (i : Nat) : Bool :=
  let byteIndex := i / 8
  let bitIndex := i % 8
  match bf.get? byteIndex with
  | none => false
  | some b => b.testBit (7 - bitIndex)

/-- `createBitfield` from the store layer: all-zero bitfield of
`ceil(totalChunks/8)` bytes. -/
def createBitfield (totalChunks : Nat) : List Nat :=
  List.replicate ((totalChunks + 7) / 8) 0

/-- `setBitfieldBit` from the store layer, on an explicit record.  Extends
the bitfield when the byte index is out of range (`new Uint8Array(byteIndex+1)`
zero-extension), ORs the bit in, and increments `receivedCount`
unconditionally — exactly as the source does. -/
def setBitfieldBit (record : FileRecord) (chunkIndex : Nat) : FileRecord :=
  let byteIndex := chunkIndex / 8
  let bitIndex := chunkIndex % 8
  let bf :=
    if record.bitfield.length ≤ byteIndex then
      record.bitfield ++ List.replicate (byteIndex + 1 - record.bitfield.length) 0
    else
      record.bitfield
  let bf' := bf.set byteIndex (bf.getD byteIndex 0 ||| (1 <<< (7 - bitIndex)))
  { record with bitfield := bf', receivedCount := record.receivedCount + 1 }

/-- `hasBitfieldBit` from the store layer. -/
def hasBitfieldBit (record : FileRecord) (chunkIndex : Nat) : Bool :=
  bitfieldHas record.bitfield chunkIndex

/-! ### Chunk planning (`chunking.ts`) -/

/-- `Math.ceil(a / b)` on non-negative integers, as computed exactly. -/
def mathCeilDiv (a b : Nat) : Nat := ⌈(a : ℚ) / (b : ℚ)⌉₊

/-- `generateFileMetadata` from `chunking.ts` (the async `fileId` hash is
passed in; `totalChunks = Math.ceil(size / chunkSize)`). -/
def generateFileMetadata (fileId name type : String) (size chunkSize createdAt : Nat) :
    FileMetadata :=
  { fileId := fileId
    name := name
    size := size
    type := type
    chunkSize := chunkSize
    totalChunks := mathCeilDiv size chunkSize
    createdAt := createdAt }

/-- `getChunkInfo` from `chunking.ts`:
`offset = index * chunkSize`, `size = min(chunkSize, totalSize - offset)`. -/
def getChunkInfo (chunkIndex totalSize chunkSize : Int) : ChunkInfo :=
  let offset := chunkIndex * chunkSize
  let remainingBytes := totalSize - offset
  { index := chunkIndex
    size := min chunkSize remainingBytes
    offset := offset }

/-- `getMissingChunksFromBitfield` from `chunking.ts`: the ascending list of
indices `i < totalChunks` whose bit is unset (out-of-range bytes count as
missing, per the `byteIndex >= bitfield.length` branch). -/
def getMissingChunksFromBitfield (bf : List Nat) (totalChunks : Nat) : List Nat :=
  (List.range totalChunks).filter (fun i => !(bitfieldHas bf i))

/-- The loop of `createRequestRanges`: state `(currentStart, currentEnd)`;
a chunk extends the current range when it is `currentEnd + 1` and the
current length is still below `maxRangeSize`, otherwise the current range
is emitted and a fresh one starts. -/
def createRequestRangesLoop (maxRangeSize : Nat) (currentStart currentEnd : Nat) :
    List Nat → List ChunkRange
  | [] => [⟨currentStart, currentEnd⟩]
  | chunk :: rest =>
    if chunk = currentEnd + 1 ∧ currentEnd - currentStart + 1 < maxRangeSize then
      createRequestRangesLoop maxRangeSize currentStart chunk rest
    else
      ⟨currentStart, currentEnd⟩ :: createRequestRangesLoop maxRangeSize chunk chunk rest

/-- `createRequestRanges` from `chunking.ts`. -/
def createRequestRanges (missingChunks : List Nat) (maxRangeSize : Nat) :
    List ChunkRange :=
  match missingChunks with
  | [] => []
  | m :: rest => createRequestRangesLoop maxRangeSize m m rest

/-- Does range `r` cover index `i` (inclusive bounds)? -/
def rangeCovers (r : ChunkRange) (i : Nat) : Bool :=
  r.start ≤ i && i ≤ r.endIdx

/-- Is index `i` covered by some range of the list? -/
def coveredBy (rs : List ChunkRange) (i : Nat) : Bool :=
  rs.any (fun r => rangeCovers r i)

/-! ### The missing-range scan of the store layer (`getMissingRanges`)

The source iterates `i` from `0` to `totalChunks - 1` carrying
`start : number` with `-1` as the "no open run" sentinel (an `Option Nat`
here); on a set bit it closes the open run as `{start, i-1}`, and after
the loop it closes a still-open run as `{start, totalChunks-1}`. -/

/-- One pass of the `getMissingRanges` loop from index `i` on, with the
currently open run start. -/
def getMissingRangesLoop (bf : List Nat) (totalChunks : Nat) (i : Nat)
    (start : Option Nat) : List ChunkRange :=
  if _h : i < totalChunks then
    match start with
    | none =>
      if bitfieldHas bf i then getMissingRangesLoop bf totalChunks (i + 1) none
      else getMissingRangesLoop bf totalChunks (i + 1) (some i)
    | some s =>
      if bitfieldHas bf i then ⟨s, i - 1⟩ :: getMissingRangesLoop bf totalChunks (i + 1) none
      else getMissingRangesLoop bf totalChunks (i + 1) (some s)
  else
    match start with
    | none => []
    | some s => [⟨s, totalChunks - 1⟩]
termination_by totalChunks - i

/-- `getMissingRanges` from the store layer, on the persisted bitfield of a
record (the IndexedDB read is made an explicit argument). -/
def getMissingRanges (bf : List Nat) (totalChunks : Nat) : List ChunkRange :=
  getMissingRangesLoop bf totalChunks 0 none

/-! ### Resume protocol (`resume-protocol.ts`) -/

/-- `handleHostRejoin`: recompute the missing ranges from the persisted
bitfield and send them as a `NEED` message — but only when at least one
range is missing (`missingRanges.length > 0`).  The result is the range
list carried by the `NEED` message, or `none` when no message is sent. -/
def handleHostRejoinNeed (bf : List Nat) (totalChunks : Nat) :
    Option (List ChunkRange) :=
  let missingRanges := getMissingRanges bf totalChunks
  if missingRanges.length > 0 then some missingRanges else none

/-- Is chunk `i` requested by the `NEED` message `handleHostRejoin` sends
on resume? -/
def needRequests (bf : List Nat) (totalChunks : Nat) (i : Nat) : Bool :=
  match handleHostRejoinNeed bf totalChunks with
  | none => false
  | some ranges => coveredBy ranges i

/-- The population count `validateResumeSession` re-derives: the number of
indices `i < totalChunks` whose bit is set (the `byteIndex < length` guard
of the source is the out-of-bounds-is-unset convention of `bitfieldHas`). -/
def popcountBitfield (bf : List Nat) (totalChunks : Nat) : Nat :=
  ((List.range totalChunks).filter (fun i => bitfieldHas bf i)).length

/-- The session snapshot `validateResumeSession` checks a record against. -/
structure ResumeSession where
  fileId : String
  metadata : FileMetadata
  bitfield : List Nat
  receivedCount : Nat
deriving Repr, DecidableEq

/-- `validateResumeSession` from `resume-protocol.ts`, returning the
validation verdict together with the (possibly repaired) stored record.
A missing record, a metadata mismatch or a bitfield-length mismatch fails
validation; otherwise the bitfield's population count is re-derived and,
when it disagrees with the stored `receivedCount`, the record is repaired
through `updateBitfield` (same bitfield, corrected count). -/
def validateResumeSession (record? : Option FileRecord) (session : ResumeSession) :
    Bool × Option FileRecord :=
  match record? with
  | none => (false, none)
  | some record =>
    if record.metadata.name ≠ session.metadata.name ∨
        record.metadata.size ≠ session.metadata.size ∨
        record.metadata.totalChunks ≠ session.metadata.totalChunks then
      (false, some record)
    else if record.bitfield.length ≠ session.bitfield.length then
      (false, some record)
    else
      let actualReceivedCount := popcountBitfield record.bitfield record.metadata.totalChunks
      if actualReceivedCount ≠ record.receivedCount then
        (true, some { record with receivedCount := actualReceivedCount })
      else
        (true, some record)

/-! ### File assembly and completion (`assembleFile`, `handleHostMessage`) -/

/-- `assembleFile` from the store layer: `null` unless
`receivedCount ≥ totalChunks`; otherwise the stored chunks are sorted by
index ascending and their payloads concatenated. -/
def assembleFile (record : FileRecord) (chunks : List ChunkRecord) :
    Option (List Nat) :=
  if record.receivedCount < record.metadata.totalChunks then
    none
  else
    some (((chunks.mergeSort (fun a b => a.index ≤ b.index)).map
      (fun c => c.data)).flatten)

/-- The status the `CHUNK` branch of `handleHostMessage` assigns after a
chunk is stored: `'completed'` exactly when
`receivedCount === totalChunks`, else `'downloading'`. -/
def chunkStatus (record : FileRecord) : String :=
  if record.receivedCount = record.metadata.totalChunks then "completed"
  else "downloading"

/-- Byte length of chunk `index` of a `size`-byte file cut into
`chunkSize`-byte chunks, as the JavaScript slices produce it: the
`min(chunkSize, size - offset)` of `getChunkInfo` clamped at `0` by
`file.slice` when the offset is past the end (natural subtraction). -/
def chunkLen (index size chunkSize : Nat) : Nat :=
  min chunkSize (size - index * chunkSize)

/-! ### The sender's REQUEST handler (`handlePeerMessage`)

For `REQUEST{startIndex, endIndex}` the host loops
`index = startIndex .. endIndex`, reads the chunk via
`readChunk`/`getChunkInfo` and sends a `CHUNK` message.  No index check is
performed and no `ERROR` message exists anywhere on this path; an
out-of-range index yields an empty `file.slice`, hence a `CHUNK` with an
empty payload.  Only the message type, index and payload length matter
for the claims. -/

/-- Outgoing messages of the transfer protocol, by type, index and payload
size (the `P2PMessage` wire schema of `types.ts`). -/
inductive OutMessage where
  | chunk (index : Nat) (payloadLen : Nat)
  | error (reason : String)
deriving Repr, DecidableEq

/-- Is the message an `ERROR` message? -/
def OutMessage.isError : OutMessage → Bool
  | .error _ => true
  | _ => false

/-- The `REQUEST` branch of `handlePeerMessage`: one `CHUNK` per index in
`[startIndex, endIndex]`, each carrying the bytes `readChunk` slices out
of the file. -/
def handlePeerRequest (size chunkSize startIndex endIndex : Nat) :
    List OutMessage :=
  (List.range' startIndex (endIndex + 1 - startIndex)).map
    (fun index => OutMessage.chunk index (chunkLen index size chunkSize))

/-! ### Backpressure (`sendMessage` of the WebRTC layer, `sendFile` of
`p2p-manager-fixed.ts`) -/

/-- `bufferedAmountLowThreshold` of the data channel (64 KiB). -/
def BUFFER_THRESHOLD : Nat := 65536

/-- The hard buffer cap `sendMessage` checks against (4 × threshold). -/
def MAX_BUFFER_SIZE : Nat := BUFFER_THRESHOLD * 4

/-- The buffered amount at the instant `sendMessage` reaches
`dataChannel.send`: when `bufferedAmount + messageSize` exceeds
`MAX_BUFFER_SIZE` it first awaits `waitForBufferDrain`, which resolves
only once the buffer is at `drained ≤ BUFFER_THRESHOLD` (the resolved
buffered amount is the `drained` argument); otherwise it sends
immediately at the current buffered amount. -/
def sendMessageBufferedAtSend (buffered messageSize drained : Nat) : Nat :=
  if MAX_BUFFER_SIZE < buffered + messageSize then drained else buffered

/-- The chunk loop of `sendFile` in `p2p-manager-fixed.ts` sends every
chunk message with `channel.send` directly, with no buffered-amount check
of any kind.  This is the sequence of buffered amounts observed at each
`send` call during an execution in which the transport drains nothing
between sends (each `send` enqueues its message, adding its size to
`bufferedAmount`). -/
def sendFileBufferedTrace (buffered : Nat) : List Nat → List Nat
  | [] => []
  | messageSize :: rest => buffered :: sendFileBufferedTrace (buffered + messageSize) rest

/-! ### The Holt throughput predictor (`eta/Holt.ts`)

JavaScript numbers are modelled as rationals; the default configuration
is `alpha = 0.5`, `beta = 0.3`, both exactly representable here. -/

/-- `HoltState` from `Holt.ts` (plus the residual window the class keeps
alongside the state). -/
structure HoltState where
  level : ℚ
  trend : ℚ
  initialized : Bool
  updateCount : Nat
  residuals : List ℚ
deriving Repr, DecidableEq

/-- `HoltConfig` from `Holt.ts`. -/
structure HoltConfig where
  alpha : ℚ
  beta : ℚ
deriving Repr, DecidableEq

/-- The constructor defaults: `alpha = 0.5`, `beta = 0.3`. -/
def holtDefaultConfig : HoltConfig := ⟨1/2, 3/10⟩

/-- The residual window cap (`maxResiduals = 60`). -/
def maxResiduals : Nat := 60

/-- The freshly constructed model state. -/
def holtInit : HoltState :=
  { level := 0, trend := 0, initialized := false, updateCount := 0, residuals := [] }

namespace Holt

/-- `Holt.update`: the first observation initializes the level; later
observations record the one-step residual and apply the Holt level/trend
recurrences (`trend` uses the already-updated level minus the previous
level, exactly as the source does). -/
def update (config : HoltConfig) (st : HoltState) (value : ℚ) : HoltState :=
  if st.initialized = false then
    { st with
      level := value
      trend := 0
      initialized := true
      updateCount := st.updateCount + 1 }
  else
    let forecastPrev := st.level + st.trend
    let residual := value - forecastPrev
    let residuals0 := st.residuals ++ [residual]
    let residuals :=
      if maxResiduals < residuals0.length then residuals0.drop 1 else residuals0
    let prevLevel := st.level
    let level := config.alpha * value + (1 - config.alpha) * (st.level + st.trend)
    let trend := config.beta * (level - prevLevel) + (1 - config.beta) * st.trend
    { st with
      level := level
      trend := trend
      residuals := residuals
      updateCount := st.updateCount + 1 }

/-- `Holt.forecast`: `0` while uninitialized, otherwise
`max(0, level + steps * trend)`. -/
def forecast (st : HoltState) (steps : ℚ) : ℚ :=
  if st.initialized = false then 0
  else max 0 (st.level + steps * st.trend)

/-- `Holt.isStable`: at least three updates. -/
def isStable (st : HoltState) : Bool :=
  3 ≤ st.updateCount

end Holt

/-! ### Helper lemmas -/

/-- `Math.ceil(a / b)` equals the natural-number formula `(a + b - 1) / b`. -/
theorem mathCeilDiv_eq (a b : Nat) (hb : 0 < b) :
    mathCeilDiv a b = (a + b - 1) / b := by
  unfold mathCeilDiv
  have hbQ : (0 : ℚ) < (b : ℚ) := by exact_mod_cast hb
  have h1 : a ≤ ((a + b - 1) / b) * b := by
    have hdm := Nat.div_add_mod' (a + b - 1) b
    have hmlt : (a + b - 1) % b < b := Nat.mod_lt _ hb
    generalize ((a + b - 1) / b) * b = X at hdm ⊢
    omega
  have h2 : 0 < (a + b - 1) / b → ((a + b - 1) / b - 1) * b < a := by
    intro hpos
    have hdm := Nat.div_add_mod' (a + b - 1) b
    have hmlt : (a + b - 1) % b < b := Nat.mod_lt _ hb
    have hxb : b ≤ ((a + b - 1) / b) * b := Nat.le_mul_of_pos_left b hpos
    rw [Nat.sub_mul, one_mul]
    generalize ((a + b - 1) / b) * b = X at hdm hxb ⊢
    omega
  apply le_antisymm
  · rw [Nat.ceil_le, div_le_iff₀ hbQ]
    exact_mod_cast Nat.cast_le.mpr h1
  · rcases Nat.eq_zero_or_pos ((a + b - 1) / b) with h0 | hpos
    · simp [h0]
    · have h1' : ((a + b - 1) / b - 1) < ⌈(a : ℚ) / b⌉₊ := by
        rw [Nat.lt_ceil, lt_div_iff₀ hbQ]
        exact_mod_cast Nat.cast_lt.mpr (h2 hpos)
      exact Nat.le_of_pred_lt h1'

/-- `size` bytes fit in `mathCeilDiv size c` chunks of `c` bytes. -/
theorem size_le_chunkCount_mul (size c : Nat) (hc : 0 < c) :
    size ≤ mathCeilDiv size c * c := by
  rw [mathCeilDiv_eq size c hc]
  have hdm := Nat.div_add_mod' (size + c - 1) c
  have hmlt : (size + c - 1) % c < c := Nat.mod_lt _ hc
  generalize ((size + c - 1) / c) * c = X at hdm ⊢
  omega

/-- The chunk lengths of the planner sum to `min size (N * c)`: cutting a
`size`-byte file into `N` chunks of nominal size `c` accounts for exactly
`size` bytes once `N * c ≥ size`. -/
theorem chunkLen_sum (size c N : Nat) :
    ((List.range N).map (fun i => chunkLen i size c)).sum = min size (N * c) := by
  induction N with
  | zero => simp
  | succ n ih =>
    rw [List.range_succ, List.map_append, List.sum_append, ih]
    have hmul : (n + 1) * c = n * c + c := by ring
    simp only [List.map_cons, List.map_nil, List.sum_cons, List.sum_nil, chunkLen]
    omega

/-- Membership in `getMissingChunksFromBitfield`. -/
theorem mem_getMissingChunksFromBitfield (bf : List Nat) (totalChunks i : Nat) :
    i ∈ getMissingChunksFromBitfield bf totalChunks ↔
      (i < totalChunks ∧ bitfieldHas bf i = false) := by
  simp [getMissingChunksFromBitfield, List.mem_filter, List.mem_range]

/-- The missing-chunk list is strictly increasing. -/
theorem pairwise_getMissingChunksFromBitfield (bf : List Nat) (totalChunks : Nat) :
    List.Pairwise (· < ·) (getMissingChunksFromBitfield bf totalChunks) :=
  (List.pairwise_lt_range totalChunks).filter _

/-- Coverage of the `createRequestRanges` loop: an index is covered by the
produced ranges exactly when it lies in the open range `[cs, ce]` or is
one of the not-yet-processed chunks. -/
theorem createRequestRangesLoop_covers (m : Nat) (l : List Nat) :
    ∀ (cs ce i : Nat), cs ≤ ce →
      (coveredBy (createRequestRangesLoop m cs ce l) i = true ↔
        ((cs ≤ i ∧ i ≤ ce) ∨ i ∈ l)) := by
  induction l with
  | nil =>
    intro cs ce i _
    simp [createRequestRangesLoop, coveredBy, rangeCovers]
  | cons c rest ih =>
    intro cs ce i hle
    rw [createRequestRangesLoop]
    split
    case isTrue h =>
      obtain ⟨hc, _⟩ := h
      subst hc
      rw [ih cs (ce + 1) i (by omega)]
      simp only [List.mem_cons]
      by_cases hr : i ∈ rest
      · simp [hr]
      · simp [hr]; omega
    case isFalse h =>
      simp only [coveredBy, List.any_cons, Bool.or_eq_true, List.mem_cons]
      rw [show (List.any (createRequestRangesLoop m c c rest)
            (fun r => rangeCovers r i) = true) =
          (coveredBy (createRequestRangesLoop m c c rest) i = true) from rfl,
        ih c c i le_rfl]
      simp only [rangeCovers, Bool.and_eq_true, decide_eq_true_eq]
      by_cases hr : i ∈ rest
      · simp [hr]
      · simp [hr]; omega

/-- Every range the `createRequestRanges` loop produces is well-formed and
no longer than `maxRangeSize`. -/
theorem createRequestRangesLoop_bounds (m : Nat) (hm : 0 < m) (l : List Nat) :
    ∀ (cs ce : Nat), cs ≤ ce → ce + 1 - cs ≤ m →
      ∀ r ∈ createRequestRangesLoop m cs ce l,
        r.start ≤ r.endIdx ∧ r.endIdx + 1 - r.start ≤ m := by
  induction l with
  | nil =>
    intro cs ce h1 h2 r hr
    simp only [createRequestRangesLoop, List.mem_singleton] at hr
    subst hr
    exact ⟨h1, h2⟩
  | cons c rest ih =>
    intro cs ce h1 h2 r hr
    rw [createRequestRangesLoop] at hr
    split at hr
    case isTrue h =>
      obtain ⟨hc, hlen⟩ := h
      subst hc
      exact ih cs (ce + 1) (by omega) (by omega) r hr
    case isFalse h =>
      rcases List.mem_cons.mp hr with he | ht
      · subst he; exact ⟨h1, h2⟩
      · exact ih c c le_rfl (by omega) r ht

/-- On a strictly increasing input every produced range ends at or after
the currently open range's end. -/
theorem createRequestRangesLoop_end_ge (m : Nat) (l : List Nat) :
    ∀ (cs ce : Nat), List.Pairwise (· < ·) (ce :: l) →
      ∀ r ∈ createRequestRangesLoop m cs ce l, ce ≤ r.endIdx := by
  induction l with
  | nil =>
    intro cs ce _ r hr
    simp only [createRequestRangesLoop, List.mem_singleton] at hr
    subst hr
    exact le_rfl
  | cons c rest ih =>
    intro cs ce hp r hr
    rw [List.pairwise_cons] at hp
    have hcec : ce < c := hp.1 c (List.mem_cons_self c rest)
    rw [createRequestRangesLoop] at hr
    split at hr
    case isTrue h =>
      have := ih cs c hp.2 r hr
      omega
    case isFalse h =>
      rcases List.mem_cons.mp hr with he | ht
      · subst he; exact le_rfl
      · have := ih c c hp.2 r ht
        omega

/-- Right-maximality of the `createRequestRanges` loop on a strictly
increasing input: a produced range whose successor index is still to be
processed was cut only because it reached the `maxRangeSize` cap. -/
theorem createRequestRangesLoop_max (m : Nat) (l : List Nat) :
    ∀ (cs ce : Nat), cs ≤ ce → List.Pairwise (· < ·) (ce :: l) →
      ∀ r ∈ createRequestRangesLoop m cs ce l,
        r.endIdx + 1 ∈ l → m ≤ r.endIdx + 1 - r.start := by
  induction l with
  | nil =>
    intro cs ce _ _ r _ hmem
    simp at hmem
  | cons c rest ih =>
    intro cs ce hle hp r hr hmem
    rw [List.pairwise_cons] at hp
    have hcec : ce < c := hp.1 c (List.mem_cons_self c rest)
    rw [createRequestRangesLoop] at hr
    split at hr
    case isTrue h =>
      obtain ⟨hc, hlen⟩ := h
      have hge : c ≤ r.endIdx := createRequestRangesLoop_end_ge m rest cs c hp.2 r hr
      rcases List.mem_cons.mp hmem with he | ht
      · omega
      · exact ih cs c (by omega) hp.2 r hr ht
    case isFalse h =>
      rcases List.mem_cons.mp hr with he | ht
      · subst he
        simp only at hmem ⊢
        have hceq : ce + 1 = c := by
          rcases List.mem_cons.mp hmem with h1 | h2
          · exact h1
          · rw [List.pairwise_cons] at hp
            have := hp.2.1 (ce + 1) h2
            omega
        have hm' : ¬(ce - cs + 1 < m) := fun hlt => h ⟨hceq.symm, hlt⟩
        omega
      · have hge : c ≤ r.endIdx := createRequestRangesLoop_end_ge m rest c c hp.2 r ht
        rcases List.mem_cons.mp hmem with he2 | ht2
        · omega
        · exact ih c c le_rfl hp.2 r ht ht2

/-- Coverage invariant of the `getMissingRanges` scan: from position `i`
with open-run state `start`, the produced ranges cover an index `k`
exactly when `k` lies in the open run `[s, i)` or is a missing index at or
after `i`. -/
theorem getMissingRangesLoop_covers (bf : List Nat) (totalChunks : Nat) :
    ∀ (n i : Nat) (start : Option Nat), totalChunks - i = n → i ≤ totalChunks →
      (∀ s, start = some s → s < i) →
      ∀ k, (coveredBy (getMissingRangesLoop bf totalChunks i start) k = true ↔
        ((∃ s, start = some s ∧ s ≤ k ∧ k < i) ∨
         (i ≤ k ∧ k < totalChunks ∧ bitfieldHas bf k = false))) := by
  intro n
  induction n with
  | zero =>
    intro i start hn hi hs k
    have hit : i = totalChunks := by omega
    subst hit
    cases start with
    | none =>
      rw [getMissingRangesLoop, dif_neg (lt_irrefl i)]
      simp only [coveredBy, List.any_nil, Bool.false_eq_true, false_iff]
      rintro (⟨s, hss, _⟩ | ⟨h1, h2, _⟩)
      · exact Option.noConfusion hss
      · omega
    | some s =>
      have hsi := hs s rfl
      rw [getMissingRangesLoop, dif_neg (lt_irrefl i)]
      simp only [coveredBy, List.any_cons, List.any_nil, Bool.or_false, rangeCovers,
        Bool.and_eq_true, decide_eq_true_eq]
      constructor
      · rintro ⟨h1, h2⟩
        exact Or.inl ⟨s, rfl, h1, by omega⟩
      · rintro (⟨s', hss, h1, h2⟩ | ⟨h1, h2, _⟩)
        · obtain rfl : s = s' := Option.some.inj hss
          exact ⟨h1, by omega⟩
        · omega
  | succ n ihn =>
    intro i start hn hi hs k
    have hlt : i < totalChunks := by omega
    cases start with
    | none =>
      rw [getMissingRangesLoop, dif_pos hlt]
      cases hb : bitfieldHas bf i with
      | true =>
        rw [if_pos rfl,
          ihn (i + 1) none (by omega) (by omega) (fun s h => Option.noConfusion h)]
        constructor
        · rintro (⟨s, hss, _⟩ | ⟨h1, h2, h3⟩)
          · exact Option.noConfusion hss
          · exact Or.inr ⟨by omega, h2, h3⟩
        · rintro (⟨s, hss, _⟩ | ⟨h1, h2, h3⟩)
          · exact Option.noConfusion hss
          · refine Or.inr ⟨?_, h2, h3⟩
            rcases Nat.eq_or_lt_of_le h1 with he | hl
            · exfalso; rw [← he, hb] at h3; exact Bool.noConfusion h3
            · omega
      | false =>
        rw [if_neg (by simp [hb]),
          ihn (i + 1) (some i) (by omega) (by omega)
            (by intro s h; injection h with h; omega)]
        constructor
        · rintro (⟨s, hss, h1, h2⟩ | ⟨h1, h2, h3⟩)
          · obtain rfl : i = s := Option.some.inj hss
            have hk : k = i := by omega
            exact Or.inr ⟨by omega, by omega, by rw [hk, hb]⟩
          · exact Or.inr ⟨by omega, h2, h3⟩
        · rintro (⟨s, hss, _⟩ | ⟨h1, h2, h3⟩)
          · exact Option.noConfusion hss
          · rcases Nat.eq_or_lt_of_le h1 with he | hl
            · exact Or.inl ⟨i, rfl, by omega, by omega⟩
            · exact Or.inr ⟨hl, h2, h3⟩
    | some s =>
      have hsi := hs s rfl
      rw [getMissingRangesLoop, dif_pos hlt]
      cases hb : bitfieldHas bf i with
      | true =>
        rw [if_pos rfl]
        have hcons :
            coveredBy (⟨s, i - 1⟩ :: getMissingRangesLoop bf totalChunks (i + 1) none) k
              = (rangeCovers ⟨s, i - 1⟩ k ||
                 coveredBy (getMissingRangesLoop bf totalChunks (i + 1) none) k) := rfl
        rw [hcons, Bool.or_eq_true,
          ihn (i + 1) none (by omega) (by omega) (fun s' h => Option.noConfusion h)]
        simp only [rangeCovers, Bool.and_eq_true, decide_eq_true_eq]
        constructor
        · rintro (⟨h1, h2⟩ | (⟨s', hss, _⟩ | ⟨h1, h2, h3⟩))
          · exact Or.inl ⟨s, rfl, h1, by omega⟩
          · exact Option.noConfusion hss
          · exact Or.inr ⟨by omega, h2, h3⟩
        · rintro (⟨s', hss, h1, h2⟩ | ⟨h1, h2, h3⟩)
          · obtain rfl : s = s' := Option.some.inj hss
            exact Or.inl ⟨h1, by omega⟩
          · have hki : i < k := by
              rcases Nat.eq_or_lt_of_le h1 with he | hl
              · exfalso; rw [← he, hb] at h3; exact Bool.noConfusion h3
              · exact hl
            exact Or.inr (Or.inr ⟨by omega, h2, h3⟩)
      | false =>
        rw [if_neg (by simp [hb]),
          ihn (i + 1) (some s) (by omega) (by omega)
            (by intro s' h; injection h with h; omega)]
        constructor
        · rintro (⟨s', hss, h1, h2⟩ | ⟨h1, h2, h3⟩)
          · obtain rfl : s = s' := Option.some.inj hss
            rcases Nat.lt_or_ge k i with hki | hki
            · exact Or.inl ⟨s, rfl, h1, hki⟩
            · have hk : k = i := by omega
              exact Or.inr ⟨hki, by omega, by rw [hk, hb]⟩
          · exact Or.inr ⟨by omega, h2, h3⟩
        · rintro (⟨s', hss, h1, h2⟩ | ⟨h1, h2, h3⟩)
          · obtain rfl : s = s' := Option.some.inj hss
            exact Or.inl ⟨s, rfl, h1, by omega⟩
          · rcases Nat.eq_or_lt_of_le h1 with he | hl
            · exact Or.inl ⟨s, rfl, by omega, by omega⟩
            · exact Or.inr ⟨hl, h2, h3⟩

/-- `getMissingRanges` covers exactly the missing indices below
`totalChunks`. -/
theorem getMissingRanges_covers (bf : List Nat) (totalChunks i : Nat) :
    coveredBy (getMissingRanges bf totalChunks) i = true ↔
      (i < totalChunks ∧ bitfieldHas bf i = false) := by
  rw [getMissingRanges,
    getMissingRangesLoop_covers bf totalChunks totalChunks 0 none rfl
      (Nat.zero_le _) (fun s h => Option.noConfusion h) i]
  constructor
  · rintro (⟨s, hss, _⟩ | ⟨_, h2, h3⟩)
    · exact Option.noConfusion hss
    · exact ⟨h2, h3⟩
  · rintro ⟨h1, h2⟩
    exact Or.inr ⟨Nat.zero_le _, h1, h2⟩

/-- The chunks `handleHostRejoin` asks for on resume are exactly those
covered by `getMissingRanges` (when nothing is missing, no `NEED` message
is sent and nothing is requested). -/
theorem needRequests_eq_covered (bf : List Nat) (totalChunks i : Nat) :
    needRequests bf totalChunks i =
      coveredBy (getMissingRanges bf totalChunks) i := by
  by_cases h : (getMissingRanges bf totalChunks).length > 0
  · have hsome : handleHostRejoinNeed bf totalChunks
        = some (getMissingRanges bf totalChunks) := by
      unfold handleHostRejoinNeed
      show (if (getMissingRanges bf totalChunks).length > 0
        then some (getMissingRanges bf totalChunks) else none)
          = some (getMissingRanges bf totalChunks)
      rw [if_pos h]
    unfold needRequests
    rw [hsome]
  · have hnone : handleHostRejoinNeed bf totalChunks = none := by
      unfold handleHostRejoinNeed
      show (if (getMissingRanges bf totalChunks).length > 0
        then some (getMissingRanges bf totalChunks) else none) = none
      rw [if_neg h]
    have hnil : getMissingRanges bf totalChunks = [] := by
      cases hg : getMissingRanges bf totalChunks with
      | nil => rfl
      | cons r rest => rw [hg] at h; simp at h
    unfold needRequests
    rw [hnone, hnil]
    rfl

/-- Coverage of `createRequestRanges`: the produced ranges cover exactly
the members of the input list (for any input list). -/
theorem createRequestRanges_covers (l : List Nat) (m : Nat) (i : Nat) :
    coveredBy (createRequestRanges l m) i = true ↔ i ∈ l := by
  cases l with
  | nil => simp [createRequestRanges, coveredBy]
  | cons c rest =>
    rw [createRequestRanges, createRequestRangesLoop_covers m rest c c i le_rfl]
    simp only [List.mem_cons]
    by_cases hr : i ∈ rest
    · simp [hr]
    · simp [hr]; omega

/-- Every range `createRequestRanges` produces is well-formed and of
length at most `maxRangeSize`. -/
theorem createRequestRanges_bounds (l : List Nat) (m : Nat) (hm : 0 < m) :
    ∀ r ∈ createRequestRanges l m,
      r.start ≤ r.endIdx ∧ r.endIdx + 1 - r.start ≤ m := by
  cases l with
  | nil => intro r hr; simp [createRequestRanges] at hr
  | cons c rest =>
    exact createRequestRangesLoop_bounds m hm rest c c le_rfl (by omega)

/-- Right-maximality of `createRequestRanges` on a strictly increasing
input list: a produced range whose successor index is itself in the input
was cut only by the `maxRangeSize` cap. -/
theorem createRequestRanges_max (l : List Nat) (m : Nat)
    (hp : List.Pairwise (· < ·) l) :
    ∀ r ∈ createRequestRanges l m,
      r.endIdx + 1 ∈ l → m ≤ r.endIdx + 1 - r.start := by
  cases l with
  | nil => intro r hr; simp [createRequestRanges] at hr
  | cons c rest =>
    intro r hr hmem
    rw [createRequestRanges] at hr
    have hge : c ≤ r.endIdx := createRequestRangesLoop_end_ge m rest c c hp r hr
    have hmem' : r.endIdx + 1 ∈ rest := by
      rcases List.mem_cons.mp hmem with he | ht
      · omega
      · exact ht
    exact createRequestRangesLoop_max m rest c c le_rfl hp r hr hmem'

/-- Length of the byte sequence `assembleFile` produces when the record is
complete and the store holds exactly the planner's chunks: it is exactly
the file size. -/
theorem assembleFile_length (record : FileRecord) (chunks : List ChunkRecord)
    (data : Nat → List Nat)
    (hchunks : chunks.Perm ((List.range record.metadata.totalChunks).map
      (fun i => ChunkRecord.mk i (data i))))
    (hdata : ∀ i, i < record.metadata.totalChunks →
      (data i).length = chunkLen i record.metadata.size record.metadata.chunkSize)
    (hsize : record.metadata.size
      ≤ record.metadata.totalChunks * record.metadata.chunkSize)
    (hrc : ¬ record.receivedCount < record.metadata.totalChunks) :
    (assembleFile record chunks).map List.length = some record.metadata.size := by
  unfold assembleFile
  rw [if_neg hrc]
  have key : (((chunks.mergeSort (fun a b => a.index ≤ b.index)).map
      (fun c => c.data)).flatten).length = record.metadata.size := by
    rw [List.length_flatten, List.map_map]
    show ((chunks.mergeSort (fun a b => a.index ≤ b.index)).map
        (fun c => (c.data).length)).sum = record.metadata.size
    have hperm : ((chunks.mergeSort (fun a b => a.index ≤ b.index)).map
        (fun c => (c.data).length)).sum
        = (((List.range record.metadata.totalChunks).map
            (fun i => ChunkRecord.mk i (data i))).map
              (fun c => (c.data).length)).sum :=
      (((List.mergeSort_perm chunks _).trans hchunks).map _).sum_eq
    rw [hperm, List.map_map]
    show ((List.range record.metadata.totalChunks).map
        (fun i => (data i).length)).sum = record.metadata.size
    rw [List.map_congr_left (fun i hi => hdata i (List.mem_range.mp hi))]
    rw [chunkLen_sum]
    exact min_eq_left hsize
  rw [show ((some (((chunks.mergeSort (fun a b => a.index ≤ b.index)).map
      (fun c => c.data)).flatten)).map List.length)
      = some ((((chunks.mergeSort (fun a b => a.index ≤ b.index)).map
        (fun c => c.data)).flatten).length) from rfl, key]

/-- A chunk index strictly below the chunk count starts strictly inside
the file. -/
theorem index_mul_lt_size (size c index : Nat) (hc : 0 < c)
    (hidx : index < mathCeilDiv size c) : index * c < size := by
  rw [mathCeilDiv_eq size c hc] at hidx
  have hdm := Nat.div_add_mod' (size + c - 1) c
  have hmlt : (size + c - 1) % c < c := Nat.mod_lt _ hc
  have h1 : (index + 1) * c ≤ ((size + c - 1) / c) * c := Nat.mul_le_mul_right _ hidx
  have h2 : ((size + c - 1) / c) * c ≤ size + c - 1 := Nat.div_mul_le_self _ _
  have h3 : (index + 1) * c = index * c + c := by ring
  have hq : 0 < (size + c - 1) / c := by omega
  have h4 : c ≤ ((size + c - 1) / c) * c := Nat.le_mul_of_pos_left c hq
  omega

/-! ### Claims -/

/-- Claim C1 (code bug): `setBitfieldBit` increments `receivedCount`
unconditionally, on every call.  Setting bit 0 twice on a fresh one-chunk
record leaves `has(0) = true`, but drives `receivedCount` to `2` — it is
incremented twice, not once — while the bitfield's population count stays
`1`, violating the `receivedCount = popcount(bitfield)` invariant that the
code's own `validateResumeSession` consistency check enforces. -/
theorem c1_setBitfieldBit_not_idempotent :
    (∀ (record : FileRecord) (i : Nat),
      (setBitfieldBit record i).receivedCount = record.receivedCount + 1) ∧
    hasBitfieldBit (setBitfieldBit (setBitfieldBit
      (FileRecord.mk "f" (FileMetadata.mk "f" "a" 1 "b" 1 1 0) [0] 0 0 0) 0) 0) 0
      = true ∧
    (setBitfieldBit (setBitfieldBit
      (FileRecord.mk "f" (FileMetadata.mk "f" "a" 1 "b" 1 1 0) [0] 0 0 0) 0) 0).receivedCount
      = 2 ∧
    popcountBitfield ((setBitfieldBit (setBitfieldBit
      (FileRecord.mk "f" (FileMetadata.mk "f" "a" 1 "b" 1 1 0) [0] 0 0 0) 0) 0).bitfield) 1
      = 1 :=
  ⟨fun _ _ => rfl, by decide, by decide, by decide⟩

/-- Claim C2: for every bitfield, every `totalChunks` and every
`maxRangeSize > 0`, `createRequestRanges ∘ getMissingChunksFromBitfield`
returns well-formed runs of length at most `maxRangeSize` whose union is
exactly the set of missing indices in `[0, totalChunks)`; a run adjacent
to a further missing index was cut only by the cap (maximality); and with
`totalChunks = 4`, chunks `{0,2}` held, the result is `[{1,1},{3,3}]`. -/
theorem c2_missing_range_computation (bf : List Nat) (totalChunks maxRangeSize : Nat)
    (hmax : 0 < maxRangeSize) :
    (∀ r ∈ createRequestRanges (getMissingChunksFromBitfield bf totalChunks)
        maxRangeSize,
      r.start ≤ r.endIdx ∧ r.endIdx + 1 - r.start ≤ maxRangeSize) ∧
    (∀ i, coveredBy (createRequestRanges (getMissingChunksFromBitfield bf totalChunks)
        maxRangeSize) i = true ↔ (i < totalChunks ∧ bitfieldHas bf i = false)) ∧
    (∀ r ∈ createRequestRanges (getMissingChunksFromBitfield bf totalChunks)
        maxRangeSize,
      r.endIdx + 1 < totalChunks → bitfieldHas bf (r.endIdx + 1) = false →
      r.endIdx + 1 - r.start = maxRangeSize) ∧
    createRequestRanges (getMissingChunksFromBitfield [160] 4) 64
      = [⟨1, 1⟩, ⟨3, 3⟩] := by
  refine ⟨createRequestRanges_bounds _ _ hmax, ?_, ?_, by decide⟩
  · intro i
    rw [createRequestRanges_covers, mem_getMissingChunksFromBitfield]
  · intro r hr hlt hmiss
    have hmem : r.endIdx + 1 ∈ getMissingChunksFromBitfield bf totalChunks :=
      (mem_getMissingChunksFromBitfield bf totalChunks _).mpr ⟨hlt, hmiss⟩
    have h1 := createRequestRanges_max _ maxRangeSize
      (pairwise_getMissingChunksFromBitfield bf totalChunks) r hr hmem
    have h2 := (createRequestRanges_bounds _ maxRangeSize hmax r hr).2
    omega

/-- Witness for C2 at the spec's concrete scenario. -/
theorem c2_missing_range_computation_witness :
    coveredBy (createRequestRanges (getMissingChunksFromBitfield [160] 4) 64) 3
      = true :=
  ((c2_missing_range_computation [160] 4 64 (by decide)).2.1 3).mpr (by decide)

/-- Claim C3: the `CHUNK` handler marks the transfer `'completed'` exactly
when `receivedCount = totalChunks`; `assembleFile` returns `null` whenever
`receivedCount < totalChunks`; and when the count is complete and the
store holds the planner's chunks (any order, correct lengths), the
assembled byte sequence has exactly `size` bytes. -/
theorem c3_completion (record : FileRecord) (chunks : List ChunkRecord)
    (data : Nat → List Nat)
    (hc : 0 < record.metadata.chunkSize)
    (htot : record.metadata.totalChunks
      = mathCeilDiv record.metadata.size record.metadata.chunkSize)
    (hdata : ∀ i, i < record.metadata.totalChunks →
      (data i).length = chunkLen i record.metadata.size record.metadata.chunkSize)
    (hchunks : chunks.Perm ((List.range record.metadata.totalChunks).map
      (fun i => ChunkRecord.mk i (data i)))) :
    (chunkStatus record = "completed" ↔
      record.receivedCount = record.metadata.totalChunks) ∧
    (record.receivedCount < record.metadata.totalChunks →
      assembleFile record chunks = none) ∧
    (record.receivedCount = record.metadata.totalChunks →
      (assembleFile record chunks).map List.length = some record.metadata.size) := by
  refine ⟨?_, ?_, ?_⟩
  · unfold chunkStatus
    split
    case isTrue h => simp [h]
    case isFalse h => simp [h]
  · intro h
    unfold assembleFile
    rw [if_pos h]
  · intro h
    apply assembleFile_length record chunks data hchunks hdata ?_ (by omega)
    rw [htot]
    exact size_le_chunkCount_mul _ _ hc

/-- Witness for C3: a complete 5-byte file in 3 chunks of nominal size 2
assembles to exactly 5 bytes. -/
theorem c3_completion_witness :
    (assembleFile (FileRecord.mk "f" (FileMetadata.mk "f" "a" 5 "b" 2 3 0) [224] 3 0 0)
      [ChunkRecord.mk 2 [5], ChunkRecord.mk 0 [1, 2], ChunkRecord.mk 1 [3, 4]]).map
        List.length = some 5 :=
  (c3_completion
    (FileRecord.mk "f" (FileMetadata.mk "f" "a" 5 "b" 2 3 0) [224] 3 0 0)
    [ChunkRecord.mk 2 [5], ChunkRecord.mk 0 [1, 2], ChunkRecord.mk 1 [3, 4]]
    (fun i => if i = 0 then [1, 2] else if i = 1 then [3, 4] else [5])
    (by decide)
    (by rw [mathCeilDiv_eq 5 2 (by decide)])
    (by decide)
    (by decide)).2.2 rfl

/-- Claim C4: the ranges `handleHostRejoin` sends in its `NEED` message on
resume cover exactly the chunk indices whose persisted bit is unset — a
chunk recorded as held at pause time is never re-requested after resume. -/
theorem c4_resume_never_rerequests (bf : List Nat) (totalChunks i : Nat) :
    needRequests bf totalChunks i = true ↔
      (i < totalChunks ∧ bitfieldHas bf i = false) := by
  rw [needRequests_eq_covered, getMissingRanges_covers]

/-- Claim C5 counterexample: the chunk loop of `sendFile` in
`p2p-manager-fixed.ts` calls `channel.send` with no backpressure check.
For a 7-chunk file (each chunk message at least 43692 bytes — the base64
expansion of a 32 KiB chunk is `4 * ceil(32768/3) = 43692` characters
before framing) on a transport that drains nothing, the seventh `send` is
called while `bufferedAmount = 262152`, which exceeds the code's own
`MAX_BUFFER_SIZE` hard cap (and a fortiori the 64 KiB high-water mark). -/
theorem c5_sendFile_no_backpressure_check :
    262152 ∈ sendFileBufferedTrace 0 (List.replicate 7 43692) ∧
    MAX_BUFFER_SIZE < 262152 ∧ BUFFER_THRESHOLD < 262152 := by decide

/-- Claim C5 (amended): the generic `sendMessage` path of the WebRTC layer
does check backpressure: whenever `bufferedAmount + messageSize` would
exceed `MAX_BUFFER_SIZE` it first awaits the drain signal (which resolves
only at or below `BUFFER_THRESHOLD`), so `dataChannel.send` is never
reached with the buffer above `MAX_BUFFER_SIZE`.  The `sendFile` chunk
loop of `p2p-manager-fixed.ts`, however, performs no such check (see the
counterexample). -/
theorem c5_sendMessage_respects_buffer_cap (buffered messageSize drained : Nat)
    (hdrained : drained ≤ BUFFER_THRESHOLD) :
    sendMessageBufferedAtSend buffered messageSize drained ≤ MAX_BUFFER_SIZE := by
  unfold sendMessageBufferedAtSend
  split
  case isTrue h =>
    calc drained ≤ BUFFER_THRESHOLD := hdrained
      _ ≤ MAX_BUFFER_SIZE := by decide
  case isFalse h => omega

/-- Witness for the amended C5. -/
theorem c5_sendMessage_respects_buffer_cap_witness :
    sendMessageBufferedAtSend 262144 43692 65536 ≤ MAX_BUFFER_SIZE :=
  c5_sendMessage_respects_buffer_cap 262144 43692 65536 (by decide)

/-- Claim C6 counterexample: a `REQUEST` for index 4 of a 4-chunk file
(`totalChunks = ceil(100000/32768) = 4`, valid indices 0..3) is answered
by `handlePeerMessage` with a `CHUNK` message carrying an empty payload —
no `ERROR` message is produced anywhere on this path. -/
theorem c6_out_of_range_request_no_error :
    handlePeerRequest 100000 32768 4 4 = [OutMessage.chunk 4 0] ∧
    (handlePeerRequest 100000 32768 4 4).any (fun m => m.isError) = false ∧
    mathCeilDiv 100000 32768 = 4 :=
  ⟨by decide, by decide, by rw [mathCeilDiv_eq 100000 32768 (by decide)]⟩

/-- Claim C6 (amended): `handlePeerMessage` answers every `REQUEST` — in
range or not — with one `CHUNK` message per requested index and never with
an `ERROR`; an out-of-range index yields a `CHUNK` with an empty payload
(the session continues, nothing aborts, but no `ERROR` rejection exists). -/
theorem c6_request_served_without_error (size chunkSize startIndex endIndex : Nat)
    (hc : 0 < chunkSize) :
    (∀ m ∈ handlePeerRequest size chunkSize startIndex endIndex,
      m.isError = false) ∧
    (∀ index payloadLen,
      OutMessage.chunk index payloadLen
          ∈ handlePeerRequest size chunkSize startIndex endIndex →
      startIndex ≤ index ∧ index ≤ endIndex ∧
        (mathCeilDiv size chunkSize ≤ index → payloadLen = 0)) := by
  constructor
  · intro m hm
    unfold handlePeerRequest at hm
    obtain ⟨i, hi, rfl⟩ := List.mem_map.mp hm
    rfl
  · intro index payloadLen hm
    unfold handlePeerRequest at hm
    obtain ⟨i, hi, heq⟩ := List.mem_map.mp hm
    obtain ⟨rfl, rfl⟩ : i = index ∧ chunkLen i size chunkSize = payloadLen := by
      injection heq with h1 h2
      exact ⟨h1, h2⟩
    rw [List.mem_range'_1] at hi
    refine ⟨hi.1, by omega, ?_⟩
    intro hidx
    unfold chunkLen
    have h1 : size ≤ mathCeilDiv size chunkSize * chunkSize :=
      size_le_chunkCount_mul _ _ hc
    have h2 : mathCeilDiv size chunkSize * chunkSize ≤ i * chunkSize :=
      Nat.mul_le_mul_right _ hidx
    omega

/-- Witness for the amended C6: the response to the out-of-range request
`{4,4}` contains no `ERROR`. -/
theorem c6_request_served_without_error_witness :
    (OutMessage.chunk 4 0).isError = false :=
  (c6_request_served_without_error 100000 32768 4 4 (by decide)).1
    (OutMessage.chunk 4 0) (by decide)

/-- Claim C7 counterexample: for `size = 100000`, `chunkSize = 32768`, the
last chunk (index 3) has `100000 - 3 * 32768 = 1696` bytes, not the 3696
bytes the spec's concrete scenario states. -/
theorem c7_last_chunk_size_is_1696 :
    (getChunkInfo 3 100000 32768).size = 1696 ∧
    ¬ (getChunkInfo 3 100000 32768).size = 3696 := by decide

/-- Claim C7 (amended): the planner computes
`totalChunks = ceil(size/chunkSize)` (equal to `(size+chunkSize-1)/chunkSize`),
`offset = index * chunkSize` and `length = min(chunkSize, size - offset)`,
with every in-range chunk non-empty and at most `chunkSize` bytes; for
`size = 100000`, `chunkSize = 32768`: `totalChunks = 4`, chunks 0-2 have
32768 bytes and chunk 3 has 1696 (not 3696) bytes. -/
theorem c7_chunk_planner (size chunkSize index : Nat)
    (hc : 0 < chunkSize) (hidx : index < mathCeilDiv size chunkSize) :
    mathCeilDiv size chunkSize = (size + chunkSize - 1) / chunkSize ∧
    (getChunkInfo index size chunkSize).offset = (index : ℤ) * chunkSize ∧
    (getChunkInfo index size chunkSize).size
      = min (chunkSize : ℤ) ((size : ℤ) - index * chunkSize) ∧
    0 < (getChunkInfo index size chunkSize).size ∧
    (getChunkInfo index size chunkSize).size ≤ chunkSize ∧
    mathCeilDiv 100000 32768 = 4 ∧
    (getChunkInfo 0 100000 32768).size = 32768 ∧
    (getChunkInfo 1 100000 32768).size = 32768 ∧
    (getChunkInfo 2 100000 32768).size = 32768 ∧
    (getChunkInfo 3 100000 32768).size = 1696 := by
  have hlt : index * chunkSize < size := index_mul_lt_size size chunkSize index hc hidx
  refine ⟨mathCeilDiv_eq size chunkSize hc, rfl, rfl, ?_, ?_,
    by rw [mathCeilDiv_eq 100000 32768 (by decide)],
    by decide, by decide, by decide, by decide⟩
  · show 0 < min ((chunkSize : ℤ)) ((size : ℤ) - (index : ℤ) * chunkSize)
    rw [lt_min_iff]
    refine ⟨by exact_mod_cast hc, ?_⟩
    rw [sub_pos]
    exact_mod_cast hlt
  · show min ((chunkSize : ℤ)) ((size : ℤ) - (index : ℤ) * chunkSize) ≤ chunkSize
    exact min_le_left _ _

/-- Witness for the amended C7 at the spec's concrete scenario. -/
theorem c7_chunk_planner_witness :
    0 < (getChunkInfo 3 100000 32768).size :=
  (c7_chunk_planner 100000 32768 3 (by decide)
    (by rw [mathCeilDiv_eq 100000 32768 (by decide)]; decide)).2.2.2.1

/-- Claim C8: whenever `validateResumeSession` succeeds, the stored record
it leaves behind satisfies `receivedCount = popcount(bitfield)` over
`[0, totalChunks)` — either the counts already agreed, or the record has
been repaired with the re-derived population count. -/
theorem c8_validate_repairs_count (record? : Option FileRecord)
    (session : ResumeSession) (rec' : FileRecord)
    (h : validateResumeSession record? session = (true, some rec')) :
    rec'.receivedCount = popcountBitfield rec'.bitfield rec'.metadata.totalChunks := by
  match record? with
  | none => simp [validateResumeSession] at h
  | some record =>
    simp only [validateResumeSession] at h
    split at h
    · simp at h
    · split at h
      · simp at h
      · split at h
        case isTrue h3 =>
          simp only [Prod.mk.injEq, Option.some.injEq] at h
          obtain ⟨-, h4⟩ := h
          subst h4
          rfl
        case isFalse h3 =>
          simp only [Prod.mk.injEq, Option.some.injEq] at h
          obtain ⟨-, h4⟩ := h
          subst h4
          have h5 : popcountBitfield record.bitfield record.metadata.totalChunks
              = record.receivedCount := by
            by_contra hne
            exact h3 hne
          exact h5.symm

/-- Witness for C8: a record whose stored count 7 disagrees with its
3-bit bitfield is repaired to `receivedCount = 3 = popcount`. -/
theorem c8_validate_repairs_count_witness :
    (3 : Nat) = popcountBitfield [224] 3 :=
  c8_validate_repairs_count
    (some (FileRecord.mk "f" (FileMetadata.mk "f" "a" 5 "b" 2 3 0) [224] 7 0 0))
    (ResumeSession.mk "f" (FileMetadata.mk "f" "a" 5 "b" 2 3 0) [224] 3)
    (FileRecord.mk "f" (FileMetadata.mk "f" "a" 5 "b" 2 3 0) [224] 3 0 0)
    (by decide)

/-- Claim C9: feeding the Holt predictor three consecutive samples of 1000
from the uninitialized state leaves `isStable` false after the first and
second updates, true exactly after the third, and `forecast(1) = 1000`
exactly (well within any tolerance). -/
theorem c9_holt_three_constant_updates :
    Holt.isStable holtInit = false ∧
    Holt.isStable (Holt.update holtDefaultConfig holtInit 1000) = false ∧
    Holt.isStable (Holt.update holtDefaultConfig
      (Holt.update holtDefaultConfig holtInit 1000) 1000) = false ∧
    Holt.isStable (Holt.update holtDefaultConfig (Holt.update holtDefaultConfig
      (Holt.update holtDefaultConfig holtInit 1000) 1000) 1000) = true ∧
    Holt.forecast (Holt.update holtDefaultConfig (Holt.update holtDefaultConfig
      (Holt.update holtDefaultConfig holtInit 1000) 1000) 1000) 1 = 1000 := by
  norm_num [Holt.update, Holt.forecast, Holt.isStable, holtInit, holtDefaultConfig,
    maxResiduals]

/-- Claim C10: `forecast` is never negative (it is clamped by
`max(0, ·)`), and it is exactly `0` for every step count while the model
is uninitialized. -/
theorem c10_forecast_nonneg (st : HoltState) (steps : ℚ) :
    0 ≤ Holt.forecast st steps ∧
      (st.initialized = false → Holt.forecast st steps = 0) := by
  unfold Holt.forecast
  constructor
  · split
    · exact le_refl 0
    · exact le_max_left 0 _
  · intro h
    rw [if_pos h]

/-- Witness for C10 at the uninitialized state. -/
theorem c10_forecast_nonneg_witness :
    0 ≤ Holt.forecast holtInit 5 ∧ Holt.forecast holtInit 5 = 0 :=
  ⟨(c10_forecast_nonneg holtInit 5).1, (c10_forecast_nonneg holtInit 5).2 rfl⟩

end HikariBeam
